import Mathlib

/-!
Verification of the asynchronous resolution-and-cache subsystem of the sFlow
Telegraf input plugin (`plugins/inputs/network_flow/sflow/sflow.go`).

The Go code is shallowly embedded: pure functions become Lean functions over
`String` / `List`, the shared caches become explicit state passing, and the
two concurrent coordination mechanisms (the `onResolve` completion counter and
the single-worker dispatcher channel) become step relations on explicit state
types.  External collaborators (Go's `regexp` engine, the system DNS resolver,
the gosnmp bulk walk) are parameters of the embedded functions, exactly where
the Go code holds them as injectable fields (`ipToFqdnFn`,
`ifIndexToIfNameFn`) or library handles.
-/

set_option autoImplicit false

namespace Sflow

/-! ### Models of the Go `strings` primitives used by `newDNSProcessor`

`strings.Index` / `strings.LastIndex` return the byte index of the first /
last occurrence of a pattern, or `-1`.  We model strings as their character
lists (the plugin only ever handles ASCII configuration strings and
dotted-decimal addresses, where byte and character indices coincide). -/

/-- Start indices (possibly overlapping) of every occurrence of `pat` in the
list, in ascending order, offset by `i`.  An empty pattern occurs at every
position including the end, matching Go's convention. -/
def occurrences (pat : List Char) : List Char → Nat → List Nat
  | [], i => if pat = [] then [i] else []
  | c :: rest, i =>
    (if pat.isPrefixOf (c :: rest) then [i] else []) ++ occurrences pat rest (i + 1)

/-- Model of Go `strings.Index s pat`: first occurrence or `-1`. -/
def strIndex (s pat : String) : Int :=
  match (occurrences pat.data s.data 0).head? with
  | some n => (n : Int)
  | none => -1

/-- Model of Go `strings.LastIndex s pat`: last occurrence or `-1`. -/
def strLastIndex (s pat : String) : Int :=
  match (occurrences pat.data s.data 0).getLast? with
  | some n => (n : Int)
  | none => -1

/-- Model of the Go slice `s[a:b]` for `0 ≤ a ≤ b`. -/
def strSlice (s : String) (a b : Int) : String :=
  String.mk ((s.data.take b.toNat).drop a.toNat)

/-- Model of the Go slice `s[a:]` for `0 ≤ a`. -/
def strDrop (s : String) (a : Int) : String :=
  String.mk (s.data.drop a.toNat)

/-! ### Model of the Go `regexp` engine interface

The plugin uses exactly two methods of a compiled `*regexp.Regexp`:
`FindAllStringSubmatchIndex(name, -1)` and `ExpandString(dst, template, name,
submatches)`.  A compiled regexp is modelled by its match function; one match
is the list of its submatch spans (`none` for a group that did not match,
position `0` being the whole match), mirroring Go's `[]int` with `-1` pairs.

Go's `ExpandString` appends to `dst` the template with each `$k` reference
replaced by the text of capture group `k` of this match (an out-of-range or
unmatched group expands to the empty string, and `$$` is a literal `$`); the
appended text depends only on the template, the source string and the
submatch spans, so it is modelled by the explicit `expandTemplate` below. -/

abbrev Submatches := List (Option (Nat × Nat))

structure GoRegexp where
  findAllSubmatchIndex : String → List Submatches

/-- Split a leading run of decimal digits off a character list. -/
def splitDigits : List Char → List Char × List Char
  | [] => ([], [])
  | c :: rest =>
    if c.isDigit then
      let p := splitDigits rest
      (c :: p.1, p.2)
    else ([], c :: rest)

theorem splitDigits_snd_length_le (l : List Char) : (splitDigits l).2.length ≤ l.length := by
  induction l with
  | nil => simp [splitDigits]
  | cons c rest ih =>
    simp only [splitDigits]
    split
    case isTrue h => exact Nat.le_succ_of_le ih
    case isFalse h => exact Nat.le_refl _

/-- Numeric value of a digit run. -/
def digitsVal (ds : List Char) : Nat :=
  ds.foldl (fun n c => n * 10 + (c.toNat - '0'.toNat)) 0

/-- The text of capture group `k` of one match (`[]` when the group is absent
or did not match), as Go's `Expand` extracts it from the source string. -/
def expandGroup (src : String) (sm : Submatches) (k : Nat) : List Char :=
  match sm.getD k none with
  | some p => (src.data.take p.2).drop p.1
  | none => []

/-- Model of the expansion Go's `Regexp.Expand` performs for one match:
walk the template, replacing `$` followed by a digit run with the text of
that capture group and `$$` with a literal `$`.  Structural recursion on a
fuel argument so the function reduces definitionally; every step strictly
shortens the remaining template (see `splitDigits_snd_length_le`), so fuel
equal to the template length never runs out. -/
def expandAuxF (src : String) (sm : Submatches) : Nat → List Char → List Char
  | _, [] => []
  | 0, _ => []
  | fuel + 1, '$' :: '$' :: rest => '$' :: expandAuxF src sm fuel rest
  | fuel + 1, '$' :: rest =>
    let p := splitDigits rest
    if p.1 = [] then '$' :: expandAuxF src sm fuel rest
    else expandGroup src sm (digitsVal p.1) ++ expandAuxF src sm fuel p.2
  | fuel + 1, c :: rest => c :: expandAuxF src sm fuel rest

def expandAux (src : String) (sm : Submatches) (t : List Char) : List Char :=
  expandAuxF src sm t.length t

def expandTemplate (template src : String) (sm : Submatches) : String :=
  String.mk (expandAux src sm template.data)

/-! ### `dnsProcessor` (sflow.go lines 484-530) -/

structure dnsProcessor where
  rePattern : Option GoRegexp
  /-- The pattern text handed to `regexp.MustCompile` (carried alongside the
  compiled engine so that construction claims can speak about it). -/
  reSource : String := ""
  template : String := ""

/-- `newDNSProcessor` (sflow.go lines 493-510).  `compile` stands for
`regexp.MustCompile`. -/
def newDNSProcessor (compile : String → GoRegexp) (processString : String) : dnsProcessor :=
  if processString = "" then { rePattern := none }
  else
    let loc := strIndex processString "s/"
    let endLoc := strLastIndex processString "/"
    if loc = 0 ∧ endLoc > loc + 1 then
      let re := strSlice processString (loc + 2) endLoc
      let template := strDrop processString (endLoc + 1)
      { rePattern := some (compile re), reSource := re, template := template }
    else
      { rePattern := some (compile processString), reSource := processString,
        template := "$1$2$3$4$5" }

/-- `dnsProcessor.transform` (sflow.go lines 512-529).  The Go loop appends
`ExpandString` output for each match to `result` and returns `name` unchanged
when the loop body never ran. -/
def dnsProcessor.transform (p : dnsProcessor) (name : String) : String :=
  match p.rePattern with
  | none => name
  | some re =>
    let ms := re.findAllSubmatchIndex name
    let result := ms.foldl (fun (acc : List Char) sm =>
      acc ++ (expandTemplate p.template name sm).data) []
    if ms.isEmpty then name else String.mk result

/-! ### `cache` (sflow.go lines 211-238)

A Go `map[string]string` under a mutex; lock-protected sequential access is
modelled by explicit state passing over an association list.  `get` returns
the zero value `""` for an absent key, exactly as the Go map read does. -/

/-- Read of a Go `map[string]string`: the value bound to `key`, or the zero
value `""` when the key is absent. -/
def lookupKV : List (String × String) → String → String
  | [], _ => ""
  | kv :: rest, key => if kv.1 == key then kv.2 else lookupKV rest key

/-- Write of a Go `map[string]string`: replace the binding of `key` if one
exists, otherwise add one. -/
def setKV : List (String × String) → String → String → List (String × String)
  | [], key, value => [(key, value)]
  | kv :: rest, key, value =>
    if kv.1 == key then (key, value) :: rest else kv :: setKV rest key value

structure cache where
  data : List (String × String)
  deriving DecidableEq, Repr

def cache.get (c : cache) (key : String) : String :=
  lookupKV c.data key

def cache.set (c : cache) (key value : String) : cache :=
  ⟨setKV c.data key value⟩

def cache.clear (_c : cache) : cache := ⟨[]⟩

def newCache : cache := ⟨[]⟩

theorem lookupKV_setKV_self (l : List (String × String)) (k v : String) :
    lookupKV (setKV l k v) k = v := by
  induction l with
  | nil => simp [setKV, lookupKV]
  | cons kv rest ih =>
    by_cases hk : (kv.1 == k) = true
    · simp [setKV, lookupKV, hk]
    · simp only [Bool.not_eq_true] at hk
      simp [setKV, lookupKV, hk, ih]

theorem cache.get_set_self (c : cache) (k v : String) : (c.set k v).get k = v :=
  lookupKV_setKV_self c.data k v

/-- Every entry of `setKV l k v` is either a binding of `k` or an entry of `l`. -/
theorem mem_setKV (l : List (String × String)) (k v : String) :
    ∀ kv ∈ setKV l k v, kv.1 = k ∨ kv ∈ l := by
  induction l with
  | nil =>
    intro kv hkv
    simp only [setKV, List.mem_singleton] at hkv
    left; rw [hkv]
  | cons kv0 rest ih =>
    intro kv hkv
    by_cases hk : (kv0.1 == k) = true
    · simp only [setKV, hk, if_true, List.mem_cons] at hkv
      rcases hkv with hkv | hkv
      · left; rw [hkv]
      · right; exact List.mem_cons_of_mem _ hkv
    · simp only [Bool.not_eq_true] at hk
      simp only [setKV, hk, Bool.false_eq_true, if_false, List.mem_cons] at hkv
      rcases hkv with hkv | hkv
      · right; rw [hkv]; exact List.mem_cons_self _ _
      · rcases ih kv hkv with h | h
        · left; exact h
        · right; exact List.mem_cons_of_mem _ h

/-! ### `ipToFqdn` (sflow.go lines 405-419)

The system resolver's `LookupAddr` is external; its outcome for the one call
is passed in as `lookupResult` (`Except.error` for `err != nil`, `Except.ok
names` otherwise).  On error or an empty name list the function returns the
IP address itself. -/

def ipToFqdn (lookupResult : Except String (List String)) (ipAddress : String) : String :=
  let fqdn := ipAddress
  match lookupResult with
  | .ok names => if names.length ≠ 0 then names.headI else fqdn
  | .error _ => fqdn

/-! ### `ifIndexToIfName` (sflow.go lines 436-482)

The gosnmp bulk walk is external: it hands each returned row to the callback
in order, and may additionally report an error (rows delivered before the
error have already been processed, as with gosnmp's multi-request walks).
So a walk outcome is a pair: the delivered rows and the error flag.
The callback keeps `(result, found) = (ifIndex, false)` initially and
overwrites them with a row's value whenever the row is an OctetString whose
name equals `".<oid>.<ifIndex>"`; the error is only logged, never consulted
when choosing the returned value. -/

inductive PduType where
  | octetString
  | other
  deriving DecidableEq, Repr

structure SnmpPDU where
  name : String
  pduType : PduType
  value : String
  deriving DecidableEq, Repr

/-- The closure handed to `BulkWalk`: `(result, found)` before seeing a row,
`(row value, true)` after an OctetString row whose name is the sought one. -/
def bulkWalkCallback (pduNameToFind : String) (acc : String × Bool) (pdu : SnmpPDU) :
    String × Bool :=
  match pdu.pduType with
  | .octetString =>
    if pdu.name = pduNameToFind then (pdu.value, true) else acc
  | .other => acc

def ifIndexToIfName (walkPdus : List SnmpPDU) (walkErr : Bool)
    (_community _snmpAgentIP ifIndex : String) : String :=
  let oid := "1.3.6.1.2.1.31.1.1.1.1"
  let pduNameToFind := "." ++ oid ++ "." ++ ifIndex
  let rf := walkPdus.foldl (bulkWalkCallback pduNameToFind) (ifIndex, false)
  rf.1

/-! ### `asyncResolver` (sflow.go lines 246-313, 361-433)

The struct's two injectable backend fields keep their Go names; the `id`
argument of `ifIndexToIfNameFn` is a diagnostic correlation counter with no
semantic content and is dropped.  The two caches are the mutable state and
are passed explicitly.  Jobs are serialized by the single dispatcher worker,
so the per-call data flow is modelled by running each submitted job to
completion in submission order. -/

structure asyncResolver where
  dns : Bool
  snmpIfaces : Bool
  snmpCommunity : String
  dnsp : dnsProcessor
  ipToFqdnFn : String → String
  ifIndexToIfNameFn : String → String → String → String

structure CacheState where
  dnsCache : cache
  ifaceCache : cache
  deriving DecidableEq, Repr

/-- What one backend resolution call produces: the value handed to the
`resolved` continuation, the cache state afterwards, and whether the backend
function (cache miss path) was invoked. -/
structure ResolveOut where
  value : String
  st : CacheState
  backendCalled : Bool
  deriving DecidableEq, Repr

/-- `asyncResolver.resolveDNS` (sflow.go lines 389-403). -/
def resolveDNS (r : asyncResolver) (st : CacheState) (ipAddress : String) : ResolveOut :=
  let fqdn := st.dnsCache.get ipAddress
  if fqdn ≠ "" then
    { value := fqdn, st := st, backendCalled := false }
  else
    let name := r.ipToFqdnFn ipAddress
    let fqdn := r.dnsp.transform name
    { value := fqdn, st := { st with dnsCache := st.dnsCache.set ipAddress fqdn },
      backendCalled := true }

/-- `asyncResolver.resolveIFace` (sflow.go lines 421-433); the cache key is
`fmt.Sprintf("%s-%s", agentIP, ifaceIndex)`. -/
def resolveIFace (r : asyncResolver) (st : CacheState) (ifaceIndex agentIP : String) :
    ResolveOut :=
  let key := agentIP ++ "-" ++ ifaceIndex
  let name := st.ifaceCache.get key
  if name ≠ "" then
    { value := name, st := st, backendCalled := false }
  else
    let name := r.ifIndexToIfNameFn r.snmpCommunity agentIP ifaceIndex
    { value := name, st := { st with ifaceCache := st.ifaceCache.set key name },
      backendCalled := true }

/-! ### Telegraf metric tag set

The subsystem reads and writes only the metric's string tags; `GetTag`
returns `(value, ok)` and `AddTag` upserts, so the tag set is the same
map-like structure as the caches. -/

abbrev Tags := List (String × String)

def getTag : Tags → String → Option String
  | [], _ => none
  | kv :: rest, k => if kv.1 == k then some kv.2 else getTag rest k

def addTag (m : Tags) (k v : String) : Tags :=
  setKV m k v

/-! ### `onResolve` (sflow.go lines 276-295)

The mutex-protected counter; `done` firing is recorded by the `fired`
invocation count instead of invoking an opaque callback. -/

structure OnResolve where
  counter : Int
  fired : Nat
  deriving DecidableEq, Repr

def OnResolve.decrement (or : OnResolve) : OnResolve :=
  let c := or.counter - 1
  { counter := c, fired := if c = 0 then or.fired + 1 else or.fired }

def OnResolve.increment (or : OnResolve) : OnResolve :=
  { or with counter := or.counter + 1 }

/-! ### Sequential run of `resolve` (sflow.go lines 301-313, 361-387)

`dnsResolve` / `ifaceResolve` guard on the flag and tag presence, increment
the counter, and submit a job; the single worker executes jobs one at a time
in submission order, each job writing its destination tag and decrementing
the counter.  The accumulator carries the metric, the caches, the number of
jobs submitted to the worker channel, and the counter state. -/

structure ResolveAcc where
  m : Tags
  st : CacheState
  jobs : Nat
  or : OnResolve
  deriving DecidableEq, Repr

/-- `asyncResolver.dnsResolve` (lines 361-373), with the submitted job run at
its place in the worker's serial order. -/
def dnsResolve (r : asyncResolver) (acc : ResolveAcc) (srcTag dstTag : String) : ResolveAcc :=
  match getTag acc.m srcTag with
  | some value =>
    if r.dns then
      let or := acc.or.increment
      let out := resolveDNS r acc.st value
      { m := addTag acc.m dstTag out.value, st := out.st, jobs := acc.jobs + 1,
        or := or.decrement }
    else acc
  | none => acc

/-- `asyncResolver.ifaceResolve` (lines 375-387). -/
def ifaceResolve (r : asyncResolver) (acc : ResolveAcc) (srcTag dstTag agentIP : String) :
    ResolveAcc :=
  match getTag acc.m srcTag with
  | some value =>
    if r.snmpIfaces then
      let or := acc.or.increment
      let out := resolveIFace r acc.st value agentIP
      { m := addTag acc.m dstTag out.value, st := out.st, jobs := acc.jobs + 1,
        or := or.decrement }
    else acc
  | none => acc

/-- `asyncResolver.resolve` (lines 301-313): three DNS dispatch attempts,
three interface dispatch attempts when `agent_ip` is present, then the final
guard decrement. -/
def resolve (r : asyncResolver) (m : Tags) (st : CacheState) : ResolveAcc :=
  let acc : ResolveAcc := { m := m, st := st, jobs := 0, or := { counter := 1, fired := 0 } }
  let acc := dnsResolve r acc "agent_ip" "host"
  let acc := dnsResolve r acc "src_ip" "src_host"
  let acc := dnsResolve r acc "dst_ip" "dst_host"
  let acc :=
    match getTag acc.m "agent_ip" with
    | some agentIP =>
      let acc := ifaceResolve r acc "source_id_index" "source_id_name" agentIP
      let acc := ifaceResolve r acc "netif_index_out" "netif_name_out" agentIP
      ifaceResolve r acc "netif_index_in" "netif_name_in" agentIP
    | none => acc
  { acc with or := acc.or.decrement }

/-- A sequence of `resolve` calls sharing the two caches. -/
def runSeq (r : asyncResolver) (ms : List Tags) (st : CacheState) : CacheState :=
  ms.foldl (fun st m => (resolve r m st).st) st

/-! ### Concurrent fan-out/fan-in machine for one `resolve` call

`resolve` performs its dispatch attempts sequentially on the calling thread
(each `increment` happens before the corresponding job is handed to the
worker), while submitted jobs may run and `decrement` at any point
interleaved with further dispatching; the guard `decrement` happens after
all dispatch attempts.  A call that dispatches `N` jobs is therefore an
interleaving generated by this step relation: `dispatch` increments the
counter and hands out the next job, `complete j` is job `j` finishing (only
once, and only after it was dispatched), and `guard` is the final decrement
on the calling thread (after all `N` dispatches, once). -/

structure RSt where
  dispatched : Nat
  guardDone : Bool
  completed : List Nat
  or : OnResolve
  deriving DecidableEq, Repr

def initRSt : RSt := { dispatched := 0, guardDone := false, completed := [], or := { counter := 1, fired := 0 } }

inductive CounterStep (N : Nat) : RSt → RSt → Prop
  | dispatch (s : RSt) (h1 : s.dispatched < N) (h2 : s.guardDone = false) :
      CounterStep N s { s with dispatched := s.dispatched + 1, or := s.or.increment }
  | complete (s : RSt) (j : Nat) (h1 : j < s.dispatched) (h2 : j ∉ s.completed) :
      CounterStep N s { s with completed := j :: s.completed, or := s.or.decrement }
  | guard (s : RSt) (h1 : s.dispatched = N) (h2 : s.guardDone = false) :
      CounterStep N s { s with guardDone := true, or := s.or.decrement }

inductive CounterReaches (N : Nat) : RSt → Prop
  | init : CounterReaches N initRSt
  | step {s t : RSt} : CounterReaches N s → CounterStep N s t → CounterReaches N t

/-- Inductive invariant of the completion counter machine. -/
def CounterInv (N : Nat) (s : RSt) : Prop :=
  s.completed.Nodup ∧
  (∀ j ∈ s.completed, j < s.dispatched) ∧
  s.dispatched ≤ N ∧
  (s.guardDone = true → s.dispatched = N) ∧
  s.or.counter = (if s.guardDone then 0 else 1) + (s.dispatched : Int) - (s.completed.length : Int) ∧
  s.or.fired = (if s.guardDone = true ∧ s.completed.length = s.dispatched then 1 else 0)

theorem length_le_of_nodup_bounded (l : List Nat) (n : Nat)
    (hnd : l.Nodup) (hb : ∀ j ∈ l, j < n) : l.length ≤ n := by
  have hsub : l.toFinset ⊆ Finset.range n := by
    intro x hx
    rw [List.mem_toFinset] at hx
    exact Finset.mem_range.mpr (hb x hx)
  have hcard := Finset.card_le_card hsub
  rwa [List.toFinset_card_of_nodup hnd, Finset.card_range] at hcard

theorem counterInv_init (N : Nat) : CounterInv N initRSt := by
  refine ⟨List.nodup_nil, ?_, Nat.zero_le _, ?_, ?_, ?_⟩ <;> simp [initRSt]

theorem counterInv_step (N : Nat) (s t : RSt) (hs : CounterInv N s)
    (hstep : CounterStep N s t) : CounterInv N t := by
  cases hstep with
  | dispatch h1 h2 =>
    obtain ⟨hnd, hbd, hdle, hgd, hc, hf⟩ := hs
    refine ⟨hnd, ?_, h1, ?_, ?_, ?_⟩
    · intro j hj
      exact Nat.lt_succ_of_lt (hbd j hj)
    · intro hg
      rw [h2] at hg
      exact absurd hg (by simp)
    · simp only [OnResolve.increment, h2, Bool.false_eq_true, if_false] at hc ⊢
      push_cast at hc ⊢
      omega
    · simp only [OnResolve.increment, h2, Bool.false_eq_true, false_and, if_false] at hf ⊢
      exact hf
  | complete j h1 h2 =>
    obtain ⟨hnd, hbd, hdle, hgd, hc, hf⟩ := hs
    have hnodup : (j :: s.completed).Nodup := List.nodup_cons.mpr ⟨h2, hnd⟩
    have hb : ∀ i ∈ j :: s.completed, i < s.dispatched := by
      intro i hi
      rcases List.mem_cons.mp hi with h | h
      · rw [h]; exact h1
      · exact hbd i h
    have hlen : s.completed.length + 1 ≤ s.dispatched := by
      have := length_le_of_nodup_bounded _ _ hnodup hb
      simpa using this
    refine ⟨hnodup, hb, hdle, hgd, ?_, ?_⟩
    · simp only [OnResolve.decrement, List.length_cons]
      by_cases hg : s.guardDone = true
      · simp only [hg, if_true] at hc ⊢
        push_cast at hc ⊢
        omega
      · simp only [hg, if_false, false_and] at hc ⊢
        push_cast at hc ⊢
        omega
    · simp only [OnResolve.decrement, List.length_cons]
      by_cases hg : s.guardDone = true
      · have hcc : s.or.counter = (0 : Int) + (s.dispatched : Int) - (s.completed.length : Int) := by
          rw [hc, hg]
          simp
        by_cases he : s.completed.length + 1 = s.dispatched
        · have hne : ¬ (s.completed.length = s.dispatched) := by omega
          have hzero : s.or.counter - 1 = 0 := by
            rw [hcc]
            push_cast
            omega
          simp only [hzero, if_true, hg, true_and, he, hf, hne, if_false]
        · have hzero : ¬ (s.or.counter - 1 = 0) := by
            rw [hcc]
            push_cast
            omega
          have hne : ¬ (s.completed.length = s.dispatched) := by omega
          simp only [hzero, if_false, hf, hg, true_and, hne, he]
      · simp only [hg, Bool.false_eq_true, false_and, if_false] at hf ⊢
        have hcc : s.or.counter = (1 : Int) + (s.dispatched : Int) - (s.completed.length : Int) := by
          rw [hc]
          simp [hg]
        have hzero : ¬ (s.or.counter - 1 = 0) := by
          rw [hcc]
          push_cast
          omega
        simp only [hzero, if_false, hf]
  | guard h1 h2 =>
    obtain ⟨hnd, hbd, hdle, hgd, hc, hf⟩ := hs
    have hlen : s.completed.length ≤ s.dispatched :=
      length_le_of_nodup_bounded _ _ hnd hbd
    have hcc : s.or.counter = (1 : Int) + (s.dispatched : Int) - (s.completed.length : Int) := by
      rw [hc, h2]
      simp
    refine ⟨hnd, hbd, hdle, fun _ => h1, ?_, ?_⟩
    · simp only [OnResolve.decrement, if_true]
      rw [hcc]
      push_cast
      omega
    · simp only [OnResolve.decrement]
      have hof : s.or.fired = 0 := by
        rw [hf, h2]
        simp
      by_cases he : s.completed.length = s.dispatched
      · have hzero : s.or.counter - 1 = 0 := by
          rw [hcc]
          push_cast
          omega
        simp [hzero, hof, he]
      · have hzero : ¬ (s.or.counter - 1 = 0) := by
          rw [hcc]
          push_cast
          omega
        simp [hzero, hof, he]

theorem counterReaches_inv (N : Nat) (s : RSt) (h : CounterReaches N s) : CounterInv N s := by
  induction h with
  | init => exact counterInv_init N
  | step _ hstep ih => exact counterInv_step N _ _ ih hstep

/-! ### Single-worker dispatcher machine (sflow.go lines 339-345)

`start` creates an unbuffered channel and exactly one worker goroutine that
repeatedly receives a job and runs it to completion before receiving again.
Producers block in the channel's FIFO sender queue.  `enqueue` is a producer
arriving at the channel, `take` is the worker receiving the oldest waiting
job (only when idle), `finish` is the worker completing the job it is
running.  `running` holds the job whose backend call is in flight. -/

structure WSt where
  queue : List Nat
  submitted : List Nat
  running : Option Nat
  executed : List Nat
  deriving DecidableEq, Repr

def initWSt : WSt := { queue := [], submitted := [], running := none, executed := [] }

inductive WorkerStep : WSt → WSt → Prop
  | enqueue (s : WSt) (j : Nat) :
      WorkerStep s { s with queue := s.queue ++ [j], submitted := s.submitted ++ [j] }
  | take (s : WSt) (j : Nat) (rest : List Nat) (hq : s.queue = j :: rest) (hr : s.running = none) :
      WorkerStep s { s with queue := rest, running := some j }
  | finish (s : WSt) (j : Nat) (h : s.running = some j) :
      WorkerStep s { s with running := none, executed := s.executed ++ [j] }

inductive WorkerReaches : WSt → Prop
  | init : WorkerReaches initWSt
  | step {s t : WSt} : WorkerReaches s → WorkerStep s t → WorkerReaches t

theorem workerReaches_inv (s : WSt) (h : WorkerReaches s) :
    s.submitted = s.executed ++ s.running.toList ++ s.queue := by
  induction h with
  | init => rfl
  | step hr hstep ih =>
    cases hstep with
    | enqueue j =>
      simp only [ih]
      simp
    | take j rest hq hrun =>
      rw [ih, hq, hrun]
      simp
    | finish j hrun =>
      rw [ih, hrun]
      simp

/-! ### Concrete regexp engines for evaluating claims on explicit inputs

`litOcc pat s i` is the list of successive non-overlapping matches of a
literal (metacharacter-free) pattern, exactly as Go's `FindAll` family
produces them for such a pattern: scan left to right, and continue after the
end of each match. -/

def litOccF (pat : List Char) : Nat → List Char → Nat → List (Nat × Nat)
  | _, [], i => if pat.isEmpty then [(i, i)] else []
  | 0, _, _ => []
  | fuel + 1, c :: rest, i =>
    if pat.isEmpty then (i, i) :: litOccF pat fuel rest (i + 1)
    else if pat.isPrefixOf (c :: rest) then
      (i, i + pat.length) :: litOccF pat fuel (rest.drop (pat.length - 1)) (i + pat.length)
    else litOccF pat fuel rest (i + 1)

/-- Fuel equal to the subject length never runs out: every recursive call
strictly shortens the remaining subject. -/
def litOcc (pat s : List Char) (i : Nat) : List (Nat × Nat) :=
  litOccF pat s.length s i

/-- Model of `regexp.MustCompile` for a literal pattern with no capture
groups: each match carries only its whole-match span. -/
def litCompile (pat : String) : GoRegexp :=
  { findAllSubmatchIndex := fun s => (litOcc pat.data s.data 0).map (fun pr => [some pr]) }

/-- Model of the compiled pattern `(ab)`: one capture group spanning the
whole match. -/
def engAB : GoRegexp :=
  { findAllSubmatchIndex := fun s =>
      (litOcc "ab".data s.data 0).map (fun pr => [some pr, some pr]) }

/-! ## Claims -/

/-! ### Occurrence lemmas for the `strings.Index` / `strings.LastIndex` models -/

theorem isPrefixOf_single (c d : Char) (xs : List Char) :
    ([c] : List Char).isPrefixOf (d :: xs) = (c == d) := by
  rw [List.isPrefixOf_cons₂]
  simp [List.isPrefixOf_nil_left]

theorem isPrefixOf_one_eq (c : Char) (l : List Char)
    (h : ([c] : List Char).isPrefixOf l = true) : ∃ t, l = c :: t := by
  cases l with
  | nil => simp [List.isPrefixOf_cons_nil] at h
  | cons d t =>
    rw [isPrefixOf_single] at h
    exact ⟨t, by rw [beq_iff_eq.mp h]⟩

theorem isPrefixOf_two_eq (a b : Char) (l : List Char)
    (h : ([a, b] : List Char).isPrefixOf l = true) : ∃ t, l = a :: b :: t := by
  cases l with
  | nil => simp [List.isPrefixOf_cons_nil] at h
  | cons c t =>
    cases t with
    | nil =>
      rw [List.isPrefixOf_cons₂] at h
      simp [List.isPrefixOf_cons_nil] at h
    | cons d t2 =>
      rw [List.isPrefixOf_cons₂, List.isPrefixOf_cons₂] at h
      simp only [List.isPrefixOf_nil_left, Bool.and_true, Bool.and_eq_true, beq_iff_eq] at h
      exact ⟨t2, by rw [h.1, h.2]⟩

theorem mem_of_head?_eq {α : Type} (l : List α) (a : α) (h : l.head? = some a) : a ∈ l := by
  cases l with
  | nil => simp at h
  | cons b t =>
    simp only [List.head?_cons, Option.some.injEq] at h
    subst h
    exact List.mem_cons_self _ _

theorem mem_of_getLast?_eq {α : Type} (l : List α) (a : α) (h : l.getLast? = some a) :
    a ∈ l := by
  induction l with
  | nil => simp at h
  | cons b t ih =>
    cases t with
    | nil =>
      simp at h
      simp [h]
    | cons c t2 =>
      rw [List.getLast?_cons_cons] at h
      exact List.mem_cons_of_mem _ (ih h)

theorem mem_occurrences (pat : List Char) (l : List Char) (i n : Nat)
    (h : n ∈ occurrences pat l i) :
    i ≤ n ∧ pat.isPrefixOf (l.drop (n - i)) = true := by
  induction l generalizing i with
  | nil =>
    simp only [occurrences] at h
    split at h
    next hp =>
      simp only [List.mem_singleton] at h
      subst h
      refine ⟨le_refl _, ?_⟩
      simp [hp, List.isPrefixOf_nil_left]
    next hp => simp at h
  | cons c rest ih =>
    simp only [occurrences, List.mem_append] at h
    rcases h with h | h
    · split at h
      next hp =>
        simp only [List.mem_singleton] at h
        subst h
        refine ⟨le_refl _, ?_⟩
        simpa [Nat.sub_self] using hp
      next hp => simp at h
    · obtain ⟨h1, h2⟩ := ih (i + 1) h
      refine ⟨by omega, ?_⟩
      have hni : n - i = (n - (i + 1)) + 1 := by omega
      rw [hni]
      simpa using h2

theorem occurrences_single_append (c : Char) (l1 l2 : List Char) (i : Nat) :
    occurrences [c] (l1 ++ l2) i =
      occurrences [c] l1 i ++ occurrences [c] l2 (i + l1.length) := by
  induction l1 generalizing i with
  | nil => simp [occurrences]
  | cons d l1 ih =>
    simp only [List.cons_append, occurrences, isPrefixOf_single, List.length_cons,
      List.append_eq]
    rw [ih]
    have harith : i + 1 + l1.length = i + (l1.length + 1) := by omega
    rw [harith]
    simp [List.append_assoc]

theorem occurrences_single_not_mem (c : Char) :
    ∀ (l : List Char) (i : Nat), c ∉ l → occurrences [c] l i = []
  | [], i, _ => by simp [occurrences]
  | d :: rest, i, h => by
    simp only [List.mem_cons, not_or] at h
    have hcd : (c == d) = false := beq_eq_false_iff_ne.mpr h.1
    simp only [occurrences, isPrefixOf_single, hcd, Bool.false_eq_true, if_false,
      List.nil_append]
    exact occurrences_single_not_mem c rest (i + 1) h.2

theorem occurrences_sorted (pat : List Char) :
    ∀ (l : List Char) (i : Nat), List.Sorted (· < ·) (occurrences pat l i)
  | [], i => by
    simp only [occurrences]
    split <;> simp
  | c :: rest, i => by
    simp only [occurrences]
    refine List.pairwise_append.mpr ⟨?_, occurrences_sorted pat rest (i + 1), ?_⟩
    · split <;> simp
    · intro a ha b hb
      split at ha
      next hp =>
        simp only [List.mem_singleton] at ha
        have := (mem_occurrences pat rest (i + 1) b hb).1
        omega
      next hp => simp at ha

theorem sorted_mem_le_getLast :
    ∀ (l : List Nat), List.Sorted (· < ·) l → ∀ (n : Nat), l.getLast? = some n →
      ∀ m ∈ l, m ≤ n
  | [], _, n, hl => by simp at hl
  | [a], _, n, hl => by
    simp only [List.getLast?_singleton, Option.some.injEq] at hl
    intro m hm
    simp only [List.mem_singleton] at hm
    omega
  | a :: b :: t, hs, n, hl => by
    rw [List.getLast?_cons_cons] at hl
    intro m hm
    rcases List.mem_cons.mp hm with rfl | hm2
    · have hn := mem_of_getLast?_eq _ _ hl
      have := (List.sorted_cons.mp hs).1 n hn
      omega
    · exact sorted_mem_le_getLast (b :: t) (List.sorted_cons.mp hs).2 n hl m hm2

theorem occurrences_single_mem_decomp (c : Char) (A B : List Char) :
    A.length ∈ occurrences [c] (A ++ c :: B) 0 := by
  rw [occurrences_single_append]
  apply List.mem_append.mpr
  right
  simp [occurrences, isPrefixOf_single]

theorem strIndex_sSlash (S : String) (l : List Char) (h : S.data = 's' :: '/' :: l) :
    strIndex S "s/" = 0 := by
  unfold strIndex
  rw [h]
  have hstep : occurrences "s/".data ('s' :: '/' :: l) 0 =
      0 :: occurrences "s/".data ('/' :: l) 1 := by
    have hp : ("s/".data).isPrefixOf ('s' :: '/' :: l) = true := by
      show (['s', '/'] : List Char).isPrefixOf ('s' :: '/' :: l) = true
      rw [List.isPrefixOf_cons₂]
      simp [isPrefixOf_single]
    show (if ("s/".data).isPrefixOf ('s' :: '/' :: l) = true then [0] else []) ++ _ = _
    rw [hp]
    simp
  rw [hstep]
  rfl

theorem strLastIndex_decomp (S : String) (l1 l2 : List Char)
    (h : S.data = l1 ++ '/' :: l2) (h2 : ('/' : Char) ∉ l2) :
    strLastIndex S "/" = (l1.length : Int) := by
  have hocc : occurrences "/".data S.data 0 = occurrences ['/'] l1 0 ++ [l1.length] := by
    show occurrences ['/'] S.data 0 = _
    rw [h, occurrences_single_append]
    congr 1
    simp only [occurrences, isPrefixOf_single]
    rw [occurrences_single_not_mem '/' l2 _ h2]
    simp
  unfold strLastIndex
  rw [hocc, List.getLast?_concat]

/-- Redundant-let-free form of `newDNSProcessor` for non-empty input. -/
theorem newDNSProcessor_eq (compile : String → GoRegexp) (S : String) (hne : S ≠ "") :
    newDNSProcessor compile S =
      (if strIndex S "s/" = 0 ∧ strLastIndex S "/" > strIndex S "s/" + 1 then
        { rePattern := some (compile (strSlice S (strIndex S "s/" + 2) (strLastIndex S "/"))),
          reSource := strSlice S (strIndex S "s/" + 2) (strLastIndex S "/"),
          template := strDrop S (strLastIndex S "/" + 1) }
      else
        { rePattern := some (compile S), reSource := S, template := "$1$2$3$4$5" }) := by
  unfold newDNSProcessor
  rw [if_neg hne]

/-- C7: construction of the name transformer from a configuration string:
empty string gives the identity transformer (no pattern); a string of the form
`s/<pattern>/<template>` — beginning with literal `s/` and containing a later
`/`, i.e. decomposable as `"s/" ++ pat ++ "/" ++ tmpl` with no `/` in `tmpl` —
compiles `pat` (the text between the prefix and the last `/`) with template
`tmpl` (the text after the last `/`); any other non-empty string is compiled
whole, with the default template `$1$2$3$4$5`. -/
theorem newDNSProcessor_spec (compile : String → GoRegexp) :
    ((newDNSProcessor compile "").rePattern = none ∧
     (newDNSProcessor compile "").reSource = "" ∧
     (newDNSProcessor compile "").template = "") ∧
    (∀ pat tmpl : String, ('/' : Char) ∉ tmpl.data →
      (newDNSProcessor compile ("s/" ++ pat ++ "/" ++ tmpl)).reSource = pat ∧
      (newDNSProcessor compile ("s/" ++ pat ++ "/" ++ tmpl)).template = tmpl ∧
      (newDNSProcessor compile ("s/" ++ pat ++ "/" ++ tmpl)).rePattern = some (compile pat)) ∧
    (∀ S : String, S ≠ "" →
      (¬ ∃ pat tmpl : String, ('/' : Char) ∉ tmpl.data ∧ S = "s/" ++ pat ++ "/" ++ tmpl) →
      (newDNSProcessor compile S).reSource = S ∧
      (newDNSProcessor compile S).template = "$1$2$3$4$5" ∧
      (newDNSProcessor compile S).rePattern = some (compile S)) := by
  refine ⟨by simp [newDNSProcessor], ?_, ?_⟩
  · intro pat tmpl htm
    have hdata : ("s/" ++ pat ++ "/" ++ tmpl).data =
        's' :: '/' :: (pat.data ++ '/' :: tmpl.data) := by
      simp only [String.data_append]
      show ['s', '/'] ++ pat.data ++ ['/'] ++ tmpl.data = _
      simp
    have hSne : ("s/" ++ pat ++ "/" ++ tmpl) ≠ "" := by
      intro h0
      have h1 : ("s/" ++ pat ++ "/" ++ tmpl).data = [] := by rw [h0]
      rw [hdata] at h1
      exact absurd h1 (by simp)
    have hidx : strIndex ("s/" ++ pat ++ "/" ++ tmpl) "s/" = 0 :=
      strIndex_sSlash _ _ hdata
    have hdata2 : ("s/" ++ pat ++ "/" ++ tmpl).data =
        ('s' :: '/' :: pat.data) ++ '/' :: tmpl.data := by
      rw [hdata]
      simp
    have hlast : strLastIndex ("s/" ++ pat ++ "/" ++ tmpl) "/" =
        ((pat.data.length + 2 : Nat) : Int) := by
      have h := strLastIndex_decomp _ _ _ hdata2 htm
      rw [h]
      norm_cast
    have hslice : strSlice ("s/" ++ pat ++ "/" ++ tmpl) (0 + 2)
        (((pat.data.length + 2 : Nat) : Int)) = pat := by
      unfold strSlice
      have hto : (((pat.data.length + 2 : Nat) : Int)).toNat = pat.data.length + 2 := by
        omega
      rw [hto, hdata2]
      rw [List.take_left' (by simp)]
      rfl
    have hdata3 : ("s/" ++ pat ++ "/" ++ tmpl).data =
        ('s' :: '/' :: (pat.data ++ ['/'])) ++ tmpl.data := by
      rw [hdata]
      simp
    have hdrop : strDrop ("s/" ++ pat ++ "/" ++ tmpl)
        (((pat.data.length + 2 : Nat) : Int) + 1) = tmpl := by
      unfold strDrop
      have hto : ((((pat.data.length + 2 : Nat) : Int)) + 1).toNat = pat.data.length + 3 := by
        omega
      rw [hto, hdata3]
      rw [List.drop_left' (by simp)]
    rw [newDNSProcessor_eq compile _ hSne, hidx, hlast]
    have hcondpos : (0 : Int) = 0 ∧ ((pat.data.length + 2 : Nat) : Int) > 0 + 1 := by
      refine ⟨rfl, ?_⟩
      push_cast
      omega
    rw [if_pos hcondpos]
    exact ⟨hslice, hdrop, by rw [hslice]⟩
  · intro S hne hno
    have hcond : ¬ (strIndex S "s/" = 0 ∧ strLastIndex S "/" > strIndex S "s/" + 1) := by
      rintro ⟨hidx, hlast⟩
      rw [hidx] at hlast
      -- the string starts with "s/"
      obtain ⟨rest, hrest⟩ : ∃ t, S.data = 's' :: '/' :: t := by
        have h1 := hidx
        unfold strIndex at h1
        cases hh : (occurrences "s/".data S.data 0).head? with
        | none => rw [hh] at h1; exact absurd h1 (by decide)
        | some n0 =>
          rw [hh] at h1
          have h1' : ((n0 : Nat) : Int) = 0 := h1
          have hn0 : n0 = 0 := by exact_mod_cast h1'
          subst hn0
          have hmem0 := mem_of_head?_eq _ _ hh
          obtain ⟨-, hpre⟩ := mem_occurrences _ _ _ _ hmem0
          rw [Nat.sub_zero, List.drop_zero] at hpre
          exact isPrefixOf_two_eq 's' '/' S.data hpre
      -- the last '/' sits at some position n > 1
      obtain ⟨n, hg, hn2⟩ :
          ∃ n : Nat, (occurrences "/".data S.data 0).getLast? = some n ∧ 1 < n := by
        have h2 := hlast
        unfold strLastIndex at h2
        cases hh : (occurrences "/".data S.data 0).getLast? with
        | none => rw [hh] at h2; exact absurd h2 (by decide)
        | some n =>
          rw [hh] at h2
          have h2' : ((n : Nat) : Int) > 0 + 1 := h2
          exact ⟨n, rfl, by exact_mod_cast h2'⟩
      have hg' : (occurrences ['/'] S.data 0).getLast? = some n := hg
      have hmemn : n ∈ occurrences ['/'] S.data 0 := mem_of_getLast?_eq _ _ hg'
      obtain ⟨-, hpren⟩ := mem_occurrences _ _ _ _ hmemn
      rw [Nat.sub_zero] at hpren
      obtain ⟨t, ht⟩ := isPrefixOf_one_eq '/' _ hpren
      have htt : S.data.drop (n + 1) = t := by
        have h3 : List.drop 1 (S.data.drop n) = List.drop 1 ('/' :: t) := by rw [ht]
        rw [List.drop_drop] at h3
        simpa using h3
      have hnlt : n < S.data.length := by
        by_contra hc
        push_neg at hc
        have : S.data.drop n = [] := List.drop_eq_nil_of_le hc
        rw [ht] at this
        exact absurd this (by simp)
      -- no '/' after position n
      have hnot : ('/' : Char) ∉ S.data.drop (n + 1) := by
        intro hc
        obtain ⟨t1, t2, ht12⟩ := List.append_of_mem hc
        have hsplit : S.data = (S.data.take (n + 1) ++ t1) ++ '/' :: t2 := by
          conv_lhs => rw [← List.take_append_drop (n + 1) S.data]
          rw [ht12]
          simp
        have hmm2 : (S.data.take (n + 1) ++ t1).length ∈ occurrences ['/'] S.data 0 := by
          have hocc := occurrences_single_mem_decomp '/' (S.data.take (n + 1) ++ t1) t2
          rw [← hsplit] at hocc
          exact hocc
        have hle := sorted_mem_le_getLast _ (occurrences_sorted _ _ _) n hg' _ hmm2
        have hlen1 : (S.data.take (n + 1)).length = n + 1 := by
          rw [List.length_take]
          omega
        rw [List.length_append, hlen1] at hle
        omega
      -- assemble the forbidden decomposition
      obtain ⟨m, rfl⟩ : ∃ m, n = m + 2 := ⟨n - 2, by omega⟩
      apply hno
      refine ⟨String.mk (rest.take m), String.mk (S.data.drop (m + 2 + 1)), hnot, ?_⟩
      apply String.ext
      have hSsplit : S.data = S.data.take (m + 2) ++ '/' :: S.data.drop (m + 2 + 1) := by
        conv_lhs => rw [← List.take_append_drop (m + 2) S.data]
        rw [ht, htt]
      have htake : S.data.take (m + 2) = 's' :: '/' :: rest.take m := by
        rw [hrest]
        simp [List.take]
      have hmk : ∀ l : List Char, (String.mk l).data = l := fun _ => rfl
      have hsd : ("s/" : String).data = ['s', '/'] := rfl
      have hsd2 : ("/" : String).data = ['/'] := rfl
      conv_lhs => rw [hSsplit, htake]
      simp only [String.data_append, hmk, hsd, hsd2, List.cons_append, List.nil_append,
        List.append_assoc, List.singleton_append]
    rw [newDNSProcessor_eq compile S hne, if_neg hcond]
    exact ⟨rfl, rfl, rfl⟩

/-- C7 witness: the three construction cases evaluated on explicit
configuration strings. -/
theorem newDNSProcessor_spec_witness :
    (newDNSProcessor litCompile "").rePattern = none ∧
    (newDNSProcessor litCompile "s/ab/x").reSource = "ab" ∧
    (newDNSProcessor litCompile "s/ab/x").template = "x" ∧
    (newDNSProcessor litCompile "ab").reSource = "ab" ∧
    (newDNSProcessor litCompile "ab").template = "$1$2$3$4$5" := by
  have h := newDNSProcessor_spec litCompile
  have h2 := h.2.1 "ab" "x" (by decide)
  have heq : ("s/" ++ "ab" ++ "/" ++ "x" : String) = "s/ab/x" := by decide
  rw [heq] at h2
  have h3 := h.2.2 "ab" (by decide) ?noDecomp
  case noDecomp =>
    rintro ⟨pat, tmpl, -, habs⟩
    have hlen := congrArg (fun s : String => s.data.length) habs
    simp only [String.data_append, List.length_append] at hlen
    have h1 : ("ab" : String).data.length = 2 := by decide
    have h2 : ("s/" : String).data.length = 2 := by decide
    have h3 : ("/" : String).data.length = 1 := by decide
    rw [h1, h2, h3] at hlen
    omega
  exact ⟨h.1.1, h2.1, h2.2.1, h3.1, h3.2.1⟩

theorem foldl_append_data (f : Submatches → String) (ms : List Submatches) (acc : List Char) :
    ms.foldl (fun a sm => a ++ (f sm).data) acc = acc ++ ((ms.map f).map String.data).flatten := by
  induction ms generalizing acc with
  | nil => simp
  | cons hd tl ih => simp [ih]

/-- C4: `transform` returns the input unchanged when no pattern is configured,
and also when the pattern has no match in the input; otherwise it returns
exactly the concatenation, in left-to-right match order, of the template
expanded against each match's capture groups — so all input text outside the
matches is discarded. -/
theorem transform_characterization (p : dnsProcessor) (n : String) :
    (p.rePattern = none → p.transform n = n) ∧
    (∀ re : GoRegexp, p.rePattern = some re → re.findAllSubmatchIndex n = [] →
      p.transform n = n) ∧
    (∀ re : GoRegexp, p.rePattern = some re → re.findAllSubmatchIndex n ≠ [] →
      p.transform n =
        String.join ((re.findAllSubmatchIndex n).map
          (fun sm => expandTemplate p.template n sm))) := by
  refine ⟨?_, ?_, ?_⟩
  · intro h
    simp [dnsProcessor.transform, h]
  · intro re hre hms
    simp [dnsProcessor.transform, hre, hms]
  · intro re hre hms
    simp only [dnsProcessor.transform, hre]
    have hempty : (re.findAllSubmatchIndex n).isEmpty = false := by
      cases h : re.findAllSubmatchIndex n with
      | nil => exact absurd h hms
      | cons a l => simp
    rw [hempty]
    simp only [Bool.false_eq_true, if_false]
    rw [String.join_eq]
    rw [foldl_append_data]
    simp

/-- C4 witness: the compiled pattern `(ab)` with the default template on input
`"xabyab"`: two matches, each expanding to its first capture group `"ab"`; the
text outside the matches (`"x"`, `"y"`) is discarded. -/
theorem transform_characterization_witness :
    ({ rePattern := some engAB, reSource := "(ab)", template := "$1$2$3$4$5" } :
        dnsProcessor).transform "xabyab" =
      String.join ((engAB.findAllSubmatchIndex "xabyab").map
        (fun sm => expandTemplate "$1$2$3$4$5" "xabyab" sm)) ∧
    engAB.findAllSubmatchIndex "xabyab" ≠ [] ∧
    ({ rePattern := some engAB, reSource := "(ab)", template := "$1$2$3$4$5" } :
        dnsProcessor).transform "xabyab" = "abab" := by
  refine ⟨?_, by decide, by decide⟩
  exact (transform_characterization
    { rePattern := some engAB, reSource := "(ab)", template := "$1$2$3$4$5" }
    "xabyab").2.2 engAB rfl (by decide)

/-! ### Concrete fixtures for counterexamples and witnesses -/

def st0 : CacheState := { dnsCache := newCache, ifaceCache := newCache }

/-- Resolver whose DNS backend is a failing reverse lookup (fallback to the
input) with rewrite spec `s/a/`: pattern `a`, empty template. -/
def rC2 : asyncResolver :=
  { dns := true, snmpIfaces := false, snmpCommunity := "",
    dnsp := newDNSProcessor litCompile "s/a/",
    ipToFqdnFn := fun ip => ipToFqdn (Except.error "lookup failed") ip,
    ifIndexToIfNameFn := fun _ _ ifIndex => ifIndex }

/-- Resolver with no rewrite spec and backends returning fixed names. -/
def rCW : asyncResolver :=
  { dns := true, snmpIfaces := true, snmpCommunity := "public",
    dnsp := newDNSProcessor litCompile "",
    ipToFqdnFn := fun _ => "host1.example.com",
    ifIndexToIfNameFn := fun _ _ _ => "eth0" }

/-- Resolver whose DNS backend is a failing reverse lookup with rewrite spec
`s/4/`: pattern `4`, empty template. -/
def rC3 : asyncResolver :=
  { dns := true, snmpIfaces := false, snmpCommunity := "",
    dnsp := newDNSProcessor litCompile "s/4/",
    ipToFqdnFn := fun ip => ipToFqdn (Except.error "no such host") ip,
    ifIndexToIfNameFn := fun _ _ ifIndex => ifIndex }

/-- Resolver with interface-name backend prefixing the index. -/
def rC9 : asyncResolver :=
  { dns := false, snmpIfaces := true, snmpCommunity := "public",
    dnsp := newDNSProcessor litCompile "",
    ipToFqdnFn := fun ip => ip,
    ifIndexToIfNameFn := fun _ _ ifIndex => "if-" ++ ifIndex }

/-! ### C2: cache idempotence -/

/-- C2 counterexample: resolver `rC2` resolves key `"a"`: the failing lookup
falls back to `"a"`, the transformer (pattern `a`, empty template) turns it
into `""`, and `("a", "")` is stored.  The entry is present, yet the second
resolution of `"a"` treats the empty cached value as a miss and invokes the
backend again — refuting the claim as stated. -/
theorem cache_idempotence_counterexample :
    (("a", "") ∈ (resolveDNS rC2 st0 "a").st.dnsCache.data) ∧
    (resolveDNS rC2 (resolveDNS rC2 st0 "a").st "a").backendCalled = true := by decide

/-- C2 (amended): provided the value produced (and cached) by the first
resolution is non-empty, a second resolution of the same key does not invoke
the backend: it returns the first resolution's value and leaves the caches
unchanged — for the DNS key and for the interface key alike.  (The cache-hit
test is `value ≠ ""`, so an entry with an empty value is treated as a miss.) -/
theorem cache_idempotence (r : asyncResolver) (st : CacheState) (ip agentIP idx : String) :
    ((resolveDNS r st ip).value ≠ "" →
      resolveDNS r (resolveDNS r st ip).st ip =
        { value := (resolveDNS r st ip).value, st := (resolveDNS r st ip).st,
          backendCalled := false }) ∧
    ((resolveIFace r st idx agentIP).value ≠ "" →
      resolveIFace r (resolveIFace r st idx agentIP).st idx agentIP =
        { value := (resolveIFace r st idx agentIP).value,
          st := (resolveIFace r st idx agentIP).st, backendCalled := false }) := by
  constructor
  · intro hv
    by_cases hmiss : st.dnsCache.get ip = ""
    · simp only [resolveDNS, if_neg (not_not_intro hmiss)] at hv ⊢
      have hget : (st.dnsCache.set ip (r.dnsp.transform (r.ipToFqdnFn ip))).get ip =
          r.dnsp.transform (r.ipToFqdnFn ip) := cache.get_set_self _ _ _
      simp only [hget]
      rw [if_pos (by simpa [hget] using hv)]
    · simp only [resolveDNS, if_pos hmiss] at hv ⊢
  · intro hv
    by_cases hmiss : st.ifaceCache.get (agentIP ++ "-" ++ idx) = ""
    · simp only [resolveIFace, if_neg (not_not_intro hmiss)] at hv ⊢
      have hget : (st.ifaceCache.set (agentIP ++ "-" ++ idx)
          (r.ifIndexToIfNameFn r.snmpCommunity agentIP idx)).get (agentIP ++ "-" ++ idx) =
          r.ifIndexToIfNameFn r.snmpCommunity agentIP idx := cache.get_set_self _ _ _
      simp only [hget]
      rw [if_pos (by simpa [hget] using hv)]
    · simp only [resolveIFace, if_pos hmiss] at hv ⊢

/-- C2 witness: warm-cache behavior of `rCW` on concrete keys. -/
theorem cache_idempotence_witness :
    resolveDNS rCW (resolveDNS rCW st0 "1.2.3.4").st "1.2.3.4" =
      { value := (resolveDNS rCW st0 "1.2.3.4").value,
        st := (resolveDNS rCW st0 "1.2.3.4").st, backendCalled := false } ∧
    resolveIFace rCW (resolveIFace rCW st0 "3" "10.0.0.1").st "3" "10.0.0.1" =
      { value := (resolveIFace rCW st0 "3" "10.0.0.1").value,
        st := (resolveIFace rCW st0 "3" "10.0.0.1").st, backendCalled := false } := by
  have h := cache_idempotence rCW st0 "1.2.3.4" "10.0.0.1" "3"
  exact ⟨h.1 (by decide), h.2 (by decide)⟩

/-! ### C3: fallback-to-input and the transformer -/

/-- C3 counterexample: reverse lookup of `"1.2.3.4"` fails, `ipToFqdn` falls
back to the IP string itself — but `resolveDNS` then applies the transformer
(pattern `4`, empty template) to the fallback, so the value resolved and
stored in the cache is `""`, not the original IP string as the claim says. -/
theorem dns_fallback_counterexample :
    ipToFqdn (Except.error "no such host") "1.2.3.4" = "1.2.3.4" ∧
    (resolveDNS rC3 st0 "1.2.3.4").value = "" ∧
    (("1.2.3.4", "") ∈ (resolveDNS rC3 st0 "1.2.3.4").st.dnsCache.data) ∧
    ("" : String) ≠ "1.2.3.4" := by decide

/-- C3 (amended): when the reverse lookup errors or returns no names,
`ipToFqdn` returns the original IP string (and the first name otherwise); on
a cache miss, however, `resolveDNS` applies the name transformer to whatever
`ipToFqdnFn` returned — the fallback included — and resolves and caches that
transformed value. -/
theorem dns_fallback (err ip : String) (names : List String) (r : asyncResolver)
    (st : CacheState) :
    ipToFqdn (Except.error err) ip = ip ∧
    ipToFqdn (Except.ok []) ip = ip ∧
    (names ≠ [] → ipToFqdn (Except.ok names) ip = names.headI) ∧
    (st.dnsCache.get ip = "" →
      (resolveDNS r st ip).value = r.dnsp.transform (r.ipToFqdnFn ip) ∧
      (resolveDNS r st ip).st.dnsCache.get ip = r.dnsp.transform (r.ipToFqdnFn ip) ∧
      (resolveDNS r st ip).backendCalled = true) := by
  refine ⟨rfl, rfl, ?_, ?_⟩
  · intro hn
    have hlen : names.length ≠ 0 := by
      intro h0
      exact hn (List.length_eq_zero.mp h0)
    simp [ipToFqdn, hlen]
  · intro hmiss
    simp only [resolveDNS, if_neg (not_not_intro hmiss)]
    simp [cache.get_set_self]

/-- C3 witness: the amended statement evaluated at concrete inputs. -/
theorem dns_fallback_witness :
    ipToFqdn (Except.error "e") "10.0.0.5" = "10.0.0.5" ∧
    ipToFqdn (Except.ok ["host2.example.com"]) "10.0.0.5" = "host2.example.com" ∧
    (resolveDNS rC3 st0 "10.0.0.5").value = rC3.dnsp.transform (rC3.ipToFqdnFn "10.0.0.5") ∧
    (resolveDNS rC3 st0 "10.0.0.5").st.dnsCache.get "10.0.0.5" =
      rC3.dnsp.transform (rC3.ipToFqdnFn "10.0.0.5") := by
  have h := dns_fallback "e" "10.0.0.5" ["host2.example.com"] rC3 st0
  have h4 := h.2.2.2 (by decide)
  exact ⟨h.1, h.2.2.1 (by decide), h4.1, h4.2.1⟩

/-! ### C5: a record with no recognized source tag -/

/-- C5: for a record carrying none of the six recognized source tags
(`agent_ip`, `src_ip`, `dst_ip`, `source_id_index`, `netif_index_out`,
`netif_index_in`), `resolve` submits no job, leaves the tag set and the
caches unmodified, and the completion fires exactly once — by the final
guard decrement. -/
theorem resolve_no_source_tags (r : asyncResolver) (m : Tags) (st : CacheState)
    (h1 : getTag m "agent_ip" = none) (h2 : getTag m "src_ip" = none)
    (h3 : getTag m "dst_ip" = none) (h4 : getTag m "source_id_index" = none)
    (h5 : getTag m "netif_index_out" = none) (h6 : getTag m "netif_index_in" = none) :
    (resolve r m st).jobs = 0 ∧ (resolve r m st).m = m ∧
    (resolve r m st).or.fired = 1 ∧ (resolve r m st).st = st := by
  simp [resolve, dnsResolve, ifaceResolve, h1, h2, h3, OnResolve.decrement]

/-- C5 witness: a record with one unrecognized tag. -/
theorem resolve_no_source_tags_witness :
    (resolve rCW [("foo", "bar")] st0).jobs = 0 ∧
    (resolve rCW [("foo", "bar")] st0).m = [("foo", "bar")] ∧
    (resolve rCW [("foo", "bar")] st0).or.fired = 1 ∧
    (resolve rCW [("foo", "bar")] st0).st = st0 :=
  resolve_no_source_tags rCW [("foo", "bar")] st0 (by decide) (by decide) (by decide)
    (by decide) (by decide) (by decide)

/-! ### C6: the interface table walk -/

theorem walk_fold_no_match (tgt : String) :
    ∀ (l : List SnmpPDU) (acc : String × Bool),
      (∀ pdu ∈ l, ¬(pdu.pduType = PduType.octetString ∧ pdu.name = tgt)) →
      l.foldl (bulkWalkCallback tgt) acc = acc
  | [], _, _ => rfl
  | pdu :: rest, acc, h => by
    have hp := h pdu (List.mem_cons_self _ _)
    have hstep : bulkWalkCallback tgt acc pdu = acc := by
      cases hty : pdu.pduType with
      | octetString =>
        simp only [bulkWalkCallback, hty]
        rw [if_neg (fun hn => hp ⟨hty, hn⟩)]
      | other => simp only [bulkWalkCallback, hty]
    rw [List.foldl_cons, hstep]
    exact walk_fold_no_match tgt rest acc (fun q hq => h q (List.mem_cons_of_mem _ hq))

theorem walk_fold_match (tgt : String) (l1 : List SnmpPDU) (p : SnmpPDU) (l2 : List SnmpPDU)
    (acc : String × Bool) (hty : p.pduType = PduType.octetString) (hnm : p.name = tgt)
    (h2 : ∀ q ∈ l2, ¬(q.pduType = PduType.octetString ∧ q.name = tgt)) :
    (l1 ++ p :: l2).foldl (bulkWalkCallback tgt) acc = (p.value, true) := by
  rw [List.foldl_append, List.foldl_cons]
  have hstep : bulkWalkCallback tgt (l1.foldl (bulkWalkCallback tgt) acc) p =
      (p.value, true) := by
    simp only [bulkWalkCallback, hty, hnm]
    simp
  rw [hstep]
  exact walk_fold_no_match tgt l2 _ h2

def walkPdusC6 : List SnmpPDU :=
  [{ name := ".1.3.6.1.2.1.31.1.1.1.1.3", pduType := .octetString, value := "eth0" }]

/-- C6 counterexample: the walk errors (`walkErr = true`) after having
delivered the row for index `"3"`; the code still returns that row's value
`"eth0"`, not the fallback `"3"` the claim mandates for an erroring walk. -/
theorem iface_walk_error_counterexample :
    ifIndexToIfName walkPdusC6 true "public" "10.0.0.1" "3" = "eth0" ∧
    ("eth0" : String) ≠ "3" := by decide

/-- C6 (amended): the walk scan retains the value of the last delivered
OctetString row named `.<ifName OID>.<ifaceIndex>`, regardless of whether the
walk errors afterwards; when no delivered row matches (in particular when the
walk fails before delivering anything, or the index is absent) the result is
the original `ifaceIndex`; and on a cache miss `resolveIFace` stores the
returned result — match or fallback — in the interface cache. -/
theorem iface_walk_result (pdus l1 l2 : List SnmpPDU) (p : SnmpPDU) (err : Bool)
    (comm agent idx : String) (r : asyncResolver) (st : CacheState)
    (agentIP ifaceIndex : String) :
    ((∀ pdu ∈ pdus, ¬(pdu.pduType = PduType.octetString ∧
        pdu.name = "." ++ "1.3.6.1.2.1.31.1.1.1.1" ++ "." ++ idx)) →
      ifIndexToIfName pdus err comm agent idx = idx) ∧
    (pdus = l1 ++ p :: l2 → p.pduType = PduType.octetString →
      p.name = "." ++ "1.3.6.1.2.1.31.1.1.1.1" ++ "." ++ idx →
      (∀ q ∈ l2, ¬(q.pduType = PduType.octetString ∧
        q.name = "." ++ "1.3.6.1.2.1.31.1.1.1.1" ++ "." ++ idx)) →
      ifIndexToIfName pdus err comm agent idx = p.value) ∧
    (st.ifaceCache.get (agentIP ++ "-" ++ ifaceIndex) = "" →
      (resolveIFace r st ifaceIndex agentIP).st.ifaceCache.get
          (agentIP ++ "-" ++ ifaceIndex) = (resolveIFace r st ifaceIndex agentIP).value ∧
      (resolveIFace r st ifaceIndex agentIP).backendCalled = true) := by
  refine ⟨?_, ?_, ?_⟩
  · intro h
    show (pdus.foldl (bulkWalkCallback ("." ++ "1.3.6.1.2.1.31.1.1.1.1" ++ "." ++ idx))
      (idx, false)).1 = idx
    rw [walk_fold_no_match _ _ _ h]
  · intro hsplit hty hnm h2
    show (pdus.foldl (bulkWalkCallback ("." ++ "1.3.6.1.2.1.31.1.1.1.1" ++ "." ++ idx))
      (idx, false)).1 = p.value
    rw [hsplit, walk_fold_match _ _ _ _ _ hty hnm h2]
  · intro hmiss
    simp only [resolveIFace, if_neg (not_not_intro hmiss)]
    simp [cache.get_set_self]

def walkPdusC6W : List SnmpPDU :=
  [{ name := ".1.3.6.1.2.1.31.1.1.1.1.2", pduType := .octetString, value := "eth1" },
   { name := ".1.3.6.1.2.1.31.1.1.1.1.3", pduType := .octetString, value := "eth2" }]

/-- C6 witness: a two-row walk (with a trailing error) and a cache-miss
store, evaluated concretely. -/
theorem iface_walk_result_witness :
    ifIndexToIfName walkPdusC6W true "" "10.0.0.9" "3" = "eth2" ∧
    (resolveIFace rCW st0 "7" "10.0.0.9").st.ifaceCache.get ("10.0.0.9" ++ "-" ++ "7") =
      (resolveIFace rCW st0 "7" "10.0.0.9").value ∧
    (resolveIFace rCW st0 "7" "10.0.0.9").backendCalled = true := by
  have h := iface_walk_result walkPdusC6W
    [{ name := ".1.3.6.1.2.1.31.1.1.1.1.2", pduType := .octetString, value := "eth1" }]
    [] { name := ".1.3.6.1.2.1.31.1.1.1.1.3", pduType := .octetString, value := "eth2" }
    true "" "10.0.0.9" "3" rCW st0 "10.0.0.9" "7"
  have h2 := h.2.1 (by decide) rfl (by decide) (by decide)
  have h3 := h.2.2 (by decide)
  exact ⟨h2, h3.1, h3.2⟩

/-! ### C9: interface cache key collision -/

/-- C9: the distinct pairs `("a-b", "c")` and `("a", "b-c")` produce the same
composite cache key `"a-b-c"`; with the first pair's result cached, resolving
the second pair is a cache hit: it returns the first pair's value and never
calls the backend. -/
theorem iface_key_collision :
    (("a-b", "c") : String × String) ≠ (("a", "b-c") : String × String) ∧
    ("a-b" ++ "-" ++ "c" : String) = ("a" ++ "-" ++ "b-c" : String) ∧
    (resolveIFace rC9 st0 "c" "a-b").backendCalled = true ∧
    (resolveIFace rC9 (resolveIFace rC9 st0 "c" "a-b").st "b-c" "a").backendCalled = false ∧
    (resolveIFace rC9 (resolveIFace rC9 st0 "c" "a-b").st "b-c" "a").value =
      (resolveIFace rC9 st0 "c" "a-b").value := by decide

/-! ### C8: cache key shapes -/

/-- Resolver for the C8 counterexample: identity transformer, failing lookup. -/
def rC8 : asyncResolver :=
  { dns := true, snmpIfaces := false, snmpCommunity := "",
    dnsp := newDNSProcessor litCompile "",
    ipToFqdnFn := fun ip => ipToFqdn (Except.error "e") ip,
    ifIndexToIfNameFn := fun _ _ ifIndex => ifIndex }

/-- C8 counterexample: a record whose `src_ip` tag value is the empty string
makes `resolveDNS` store the entry `("", "")` — the DNS cache then holds an
empty key, refuting the claim for arbitrary tag values. -/
theorem cache_empty_key_counterexample :
    ("", "") ∈ (runSeq rC8 [[("src_ip", "")]] st0).dnsCache.data := by decide

/-- Both caches hold only well-formed keys: non-empty DNS keys, and interface
keys that are `agent ++ "-" ++ index` with both components non-empty. -/
def CacheKeysOK (st : CacheState) : Prop :=
  (∀ kv ∈ st.dnsCache.data, kv.1 ≠ "") ∧
  (∀ kv ∈ st.ifaceCache.data, ∃ a b, kv.1 = a ++ "-" ++ b ∧ a ≠ "" ∧ b ≠ "")

theorem getTag_mem (m : Tags) (k v : String) (h : getTag m k = some v) :
    ∃ x, (x, v) ∈ m := by
  induction m with
  | nil => simp [getTag] at h
  | cons kv rest ih =>
    by_cases hk : (kv.1 == k) = true
    · simp only [getTag, hk, if_true, Option.some.injEq] at h
      refine ⟨kv.1, ?_⟩
      rw [← h]
      have heta : (kv.1, kv.2) = kv := rfl
      rw [heta]
      exact List.mem_cons_self _ _
    · have hk' : (kv.1 == k) = false := by simpa using hk
      simp only [getTag, hk', Bool.false_eq_true, if_false] at h
      obtain ⟨x, hx⟩ := ih h
      exact ⟨x, List.mem_cons_of_mem _ hx⟩

theorem getTag_setKV_ne (kw v k : String) (hk : k ≠ kw) :
    ∀ m : Tags, getTag (setKV m kw v) k = getTag m k
  | [] => by
    have hbeq : (kw == k) = false := beq_eq_false_iff_ne.mpr (fun h => hk h.symm)
    simp [setKV, getTag, hbeq]
  | kv :: rest => by
    by_cases h1 : (kv.1 == kw) = true
    · have hkv : kv.1 = kw := beq_iff_eq.mp h1
      have hbeq : (kw == k) = false := beq_eq_false_iff_ne.mpr (fun h => hk h.symm)
      have hbeq2 : (kv.1 == k) = false := by rw [hkv]; exact hbeq
      simp [setKV, getTag, h1, hbeq, hbeq2]
    · have h1' : (kv.1 == kw) = false := by simpa using h1
      simp [setKV, getTag, h1', getTag_setKV_ne kw v k hk rest]

theorem getTag_addTag_ne (m : Tags) (kw v k : String) (hk : k ≠ kw) :
    getTag (addTag m kw v) k = getTag m k :=
  getTag_setKV_ne kw v k hk m

theorem resolveDNS_keysOK (r : asyncResolver) (st : CacheState) (ip : String)
    (hip : ip ≠ "") (h : CacheKeysOK st) : CacheKeysOK (resolveDNS r st ip).st := by
  by_cases hmiss : st.dnsCache.get ip = ""
  · simp only [resolveDNS, if_neg (not_not_intro hmiss)]
    refine ⟨?_, h.2⟩
    intro kv hkv
    rcases mem_setKV _ _ _ kv hkv with h1 | h1
    · rw [h1]; exact hip
    · exact h.1 kv h1
  · simp only [resolveDNS, if_pos hmiss]
    exact h

theorem resolveIFace_keysOK (r : asyncResolver) (st : CacheState) (idx agentIP : String)
    (hidx : idx ≠ "") (hagent : agentIP ≠ "") (h : CacheKeysOK st) :
    CacheKeysOK (resolveIFace r st idx agentIP).st := by
  by_cases hmiss : st.ifaceCache.get (agentIP ++ "-" ++ idx) = ""
  · simp only [resolveIFace, if_neg (not_not_intro hmiss)]
    refine ⟨h.1, ?_⟩
    intro kv hkv
    rcases mem_setKV _ _ _ kv hkv with h1 | h1
    · exact ⟨agentIP, idx, h1, hagent, hidx⟩
    · exact h.2 kv h1
  · simp only [resolveIFace, if_pos hmiss]
    exact h

theorem dnsResolve_keysOK (r : asyncResolver) (acc : ResolveAcc) (s d : String)
    (hv : ∀ v, getTag acc.m s = some v → v ≠ "") (h : CacheKeysOK acc.st) :
    CacheKeysOK (dnsResolve r acc s d).st ∧
    (∀ k, k ≠ d → getTag (dnsResolve r acc s d).m k = getTag acc.m k) := by
  unfold dnsResolve
  cases hg : getTag acc.m s with
  | none => exact ⟨h, fun k _ => rfl⟩
  | some v =>
    dsimp only
    by_cases hdns : r.dns = true
    · rw [if_pos hdns]
      exact ⟨resolveDNS_keysOK r acc.st v (hv v hg) h,
        fun k hk => getTag_addTag_ne acc.m d _ k hk⟩
    · rw [if_neg hdns]
      exact ⟨h, fun k _ => rfl⟩

theorem ifaceResolve_keysOK (r : asyncResolver) (acc : ResolveAcc) (s d agentIP : String)
    (hv : ∀ v, getTag acc.m s = some v → v ≠ "") (hagent : agentIP ≠ "")
    (h : CacheKeysOK acc.st) :
    CacheKeysOK (ifaceResolve r acc s d agentIP).st ∧
    (∀ k, k ≠ d → getTag (ifaceResolve r acc s d agentIP).m k = getTag acc.m k) := by
  unfold ifaceResolve
  cases hg : getTag acc.m s with
  | none => exact ⟨h, fun k _ => rfl⟩
  | some v =>
    dsimp only
    by_cases hsnmp : r.snmpIfaces = true
    · rw [if_pos hsnmp]
      exact ⟨resolveIFace_keysOK r acc.st v agentIP (hv v hg) hagent h,
        fun k hk => getTag_addTag_ne acc.m d _ k hk⟩
    · rw [if_neg hsnmp]
      exact ⟨h, fun k _ => rfl⟩

theorem resolve_keysOK (r : asyncResolver) (m : Tags) (st : CacheState)
    (hm : ∀ kv ∈ m, kv.2 ≠ "") (h : CacheKeysOK st) :
    CacheKeysOK (resolve r m st).st := by
  have hv0 : ∀ s v, getTag m s = some v → v ≠ "" := by
    intro s v hsv
    obtain ⟨x, hx⟩ := getTag_mem m s v hsv
    exact hm (x, v) hx
  unfold resolve
  dsimp only
  have h1 := dnsResolve_keysOK r { m := m, st := st, jobs := 0, or := { counter := 1, fired := 0 } } "agent_ip" "host" (fun v hv => hv0 _ v hv) h
  set a1 := dnsResolve r { m := m, st := st, jobs := 0, or := { counter := 1, fired := 0 } } "agent_ip" "host" with ha1
  have hv1 : ∀ s, s ≠ "host" → getTag a1.m s = getTag m s := fun s hs => h1.2 s hs
  have h2 := dnsResolve_keysOK r a1 "src_ip" "src_host"
    (fun v hv => hv0 "src_ip" v (by rwa [hv1 "src_ip" (by decide)] at hv)) h1.1
  set a2 := dnsResolve r a1 "src_ip" "src_host" with ha2
  have hv2 : ∀ s, s ≠ "src_host" → s ≠ "host" → getTag a2.m s = getTag m s := by
    intro s hs1 hs2
    rw [h2.2 s hs1, hv1 s hs2]
  have h3 := dnsResolve_keysOK r a2 "dst_ip" "dst_host"
    (fun v hv => hv0 "dst_ip" v (by rwa [hv2 "dst_ip" (by decide) (by decide)] at hv)) h2.1
  set a3 := dnsResolve r a2 "dst_ip" "dst_host" with ha3
  have hv3 : ∀ s, s ≠ "dst_host" → s ≠ "src_host" → s ≠ "host" → getTag a3.m s = getTag m s := by
    intro s hs1 hs2 hs3
    rw [h3.2 s hs1, hv2 s hs2 hs3]
  cases hag : getTag a3.m "agent_ip" with
  | none => exact h3.1
  | some agentIP =>
    have hagm : getTag m "agent_ip" = some agentIP := by
      rw [← hv3 "agent_ip" (by decide) (by decide) (by decide)]
      exact hag
    have hagent : agentIP ≠ "" := hv0 "agent_ip" agentIP hagm
    have h4 := ifaceResolve_keysOK r a3 "source_id_index" "source_id_name" agentIP
      (fun v hv => hv0 "source_id_index" v
        (by rwa [hv3 "source_id_index" (by decide) (by decide) (by decide)] at hv)) hagent h3.1
    set a4 := ifaceResolve r a3 "source_id_index" "source_id_name" agentIP with ha4
    have hv4 : ∀ s, s ≠ "source_id_name" → s ≠ "dst_host" → s ≠ "src_host" → s ≠ "host" →
        getTag a4.m s = getTag m s := by
      intro s hs1 hs2 hs3 hs4
      rw [h4.2 s hs1, hv3 s hs2 hs3 hs4]
    have h5 := ifaceResolve_keysOK r a4 "netif_index_out" "netif_name_out" agentIP
      (fun v hv => hv0 "netif_index_out" v
        (by rwa [hv4 "netif_index_out" (by decide) (by decide) (by decide) (by decide)] at hv))
      hagent h4.1
    set a5 := ifaceResolve r a4 "netif_index_out" "netif_name_out" agentIP with ha5
    have hv5 : ∀ s, s ≠ "netif_name_out" → s ≠ "source_id_name" → s ≠ "dst_host" →
        s ≠ "src_host" → s ≠ "host" → getTag a5.m s = getTag m s := by
      intro s hs1 hs2 hs3 hs4 hs5
      rw [h5.2 s hs1, hv4 s hs2 hs3 hs4 hs5]
    have h6 := ifaceResolve_keysOK r a5 "netif_index_in" "netif_name_in" agentIP
      (fun v hv => hv0 "netif_index_in" v
        (by rwa [hv5 "netif_index_in" (by decide) (by decide) (by decide) (by decide)
          (by decide)] at hv))
      hagent h5.1
    exact h6.1

/-- C8 (amended): starting from empty caches, for any sequence of resolved
records all of whose tag values are non-empty strings, the DNS cache never
holds an empty key and every interface-cache key is `agent ++ "-" ++ index`
with both components non-empty.  (The code itself never checks for empty tag
values; an empty `src_ip` value produces an empty key, see the
counterexample.) -/
theorem cache_keys_nonempty (r : asyncResolver) (ms : List Tags)
    (hms : ∀ m ∈ ms, ∀ kv ∈ m, kv.2 ≠ "") :
    (∀ kv ∈ (runSeq r ms st0).dnsCache.data, kv.1 ≠ "") ∧
    (∀ kv ∈ (runSeq r ms st0).ifaceCache.data,
      ∃ a b, kv.1 = a ++ "-" ++ b ∧ a ≠ "" ∧ b ≠ "") := by
  have hgen : ∀ (l : List Tags) (st : CacheState), (∀ m ∈ l, ∀ kv ∈ m, kv.2 ≠ "") →
      CacheKeysOK st → CacheKeysOK (runSeq r l st) := by
    intro l
    induction l with
    | nil => intro st _ h; exact h
    | cons m rest ih =>
      intro st hval h
      unfold runSeq
      rw [List.foldl_cons]
      exact ih _ (fun m2 hm2 => hval m2 (List.mem_cons_of_mem _ hm2))
        (resolve_keysOK r m st (hval m (List.mem_cons_self _ _)) h)
  have h0 : CacheKeysOK st0 := by
    constructor
    · intro kv hkv
      exact absurd hkv (by simp [st0, newCache])
    · intro kv hkv
      exact absurd hkv (by simp [st0, newCache])
  exact hgen ms st0 hms h0

/-- C8 witness: one record with two non-empty source tags resolved by `rCW`
from empty caches. -/
theorem cache_keys_nonempty_witness :
    (∀ kv ∈ (runSeq rCW [[("agent_ip", "10.0.0.1"), ("src_ip", "10.0.0.2"),
        ("source_id_index", "3")]] st0).dnsCache.data, kv.1 ≠ "") ∧
    (∀ kv ∈ (runSeq rCW [[("agent_ip", "10.0.0.1"), ("src_ip", "10.0.0.2"),
        ("source_id_index", "3")]] st0).ifaceCache.data,
      ∃ a b, kv.1 = a ++ "-" ++ b ∧ a ≠ "" ∧ b ≠ "") :=
  cache_keys_nonempty rCW
    [[("agent_ip", "10.0.0.1"), ("src_ip", "10.0.0.2"), ("source_id_index", "3")]]
    (by decide)

/-! ### C1: the completion counter fires exactly once -/

/-- C1: in any interleaving of a `resolve` call that dispatches `N ≤ 6` jobs
with the completions of those jobs, the completion action fires at most once;
it has fired exactly when the guard decrement has happened and every
dispatched job has decremented — so it fires exactly once per call, only
after all `N` dispatched jobs finished (for `N = 0`, at the guard decrement
itself), and never a second time. -/
theorem completion_fires_exactly_once (N : Nat) (hN : N ≤ 6) (s : RSt)
    (h : CounterReaches N s) :
    s.or.fired ≤ 1 ∧
    (s.or.fired = 1 ↔ s.guardDone = true ∧ s.completed.length = s.dispatched) ∧
    (s.guardDone = true → s.dispatched = N) ∧
    (s.or.fired = 1 → ∀ j, j < N → j ∈ s.completed) := by
  obtain ⟨hnd, hbd, hdle, hgd, hc, hf⟩ := counterReaches_inv N s h
  refine ⟨?_, ?_, hgd, ?_⟩
  · rw [hf]
    split <;> omega
  · rw [hf]
    constructor
    · intro h1
      by_cases hcond : s.guardDone = true ∧ s.completed.length = s.dispatched
      · exact hcond
      · rw [if_neg hcond] at h1
        exact absurd h1 (by omega)
    · intro hcond
      rw [if_pos hcond]
  · intro h1 j hj
    rw [hf] at h1
    have hcond : s.guardDone = true ∧ s.completed.length = s.dispatched := by
      by_cases hcond : s.guardDone = true ∧ s.completed.length = s.dispatched
      · exact hcond
      · rw [if_neg hcond] at h1
        exact absurd h1 (by omega)
    have hdn : s.dispatched = N := hgd hcond.1
    have hsub : s.completed.toFinset ⊆ Finset.range N := by
      intro x hx
      rw [List.mem_toFinset] at hx
      exact Finset.mem_range.mpr (hdn ▸ hbd x hx)
    have hcards : Finset.range N ⊆ s.completed.toFinset := by
      apply Finset.subset_of_eq
      symm
      apply Finset.eq_of_subset_of_card_le hsub
      rw [List.toFinset_card_of_nodup hnd, Finset.card_range]
      omega
    have : j ∈ s.completed.toFinset := hcards (Finset.mem_range.mpr hj)
    rwa [List.mem_toFinset] at this

/-- Final state of the `N = 1` run: dispatch, completion of job 0, guard. -/
def c1FinalState : RSt :=
  { dispatched := 1, guardDone := true, completed := [0],
    or := { counter := 0, fired := 1 } }

/-- C1 witness: the machine for `N = 1`, run dispatch → job completion →
guard decrement, reaches the final state with the completion fired once. -/
theorem completion_fires_exactly_once_witness :
    c1FinalState.or.fired ≤ 1 ∧
    (c1FinalState.or.fired = 1 ↔
      c1FinalState.guardDone = true ∧
      c1FinalState.completed.length = c1FinalState.dispatched) ∧
    (c1FinalState.guardDone = true → c1FinalState.dispatched = 1) ∧
    (c1FinalState.or.fired = 1 → ∀ j, j < 1 → j ∈ c1FinalState.completed) := by
  have h0 : CounterReaches 1 initRSt := CounterReaches.init
  have hs1 : CounterStep 1 initRSt
      { dispatched := 1, guardDone := false, completed := [],
        or := { counter := 2, fired := 0 } } :=
    CounterStep.dispatch initRSt (by decide) rfl
  have h1 := CounterReaches.step h0 hs1
  have hs2 : CounterStep 1
      { dispatched := 1, guardDone := false, completed := [],
        or := { counter := 2, fired := 0 } }
      { dispatched := 1, guardDone := false, completed := [0],
        or := { counter := 1, fired := 0 } } :=
    CounterStep.complete _ 0 (by decide) (by decide)
  have h2 := CounterReaches.step h1 hs2
  have hs3 : CounterStep 1
      { dispatched := 1, guardDone := false, completed := [0],
        or := { counter := 1, fired := 0 } }
      c1FinalState :=
    CounterStep.guard _ rfl rfl
  have h3 := CounterReaches.step h2 hs3
  exact completion_fires_exactly_once 1 (by decide) _ h3

/-! ### C10: the single-worker dispatcher serializes backend work -/

/-- C10: in every reachable state of the dispatcher — one unbuffered channel
drained by exactly one worker that runs each received job to completion —
the submitted jobs are exactly the executed ones, then the one currently
running (if any), then the still-queued ones, in submission order; and at
most one job (hence at most one backend network operation) is in flight at
any moment. -/
theorem single_worker_serializes (s : WSt) (h : WorkerReaches s) :
    s.submitted = s.executed ++ s.running.toList ++ s.queue ∧
    s.running.toList.length ≤ 1 := by
  refine ⟨workerReaches_inv s h, ?_⟩
  cases s.running <;> simp

/-- Final state of the C10 run: submit 5, take it, submit 7, finish 5. -/
def c10FinalState : WSt :=
  { queue := [7], submitted := [5, 7], running := none, executed := [5] }

/-- C10 witness: submit 5, hand it to the worker, submit 7 (queued while the
worker is busy), finish 5. -/
theorem single_worker_serializes_witness :
    c10FinalState.submitted =
      c10FinalState.executed ++ c10FinalState.running.toList ++ c10FinalState.queue ∧
    c10FinalState.running.toList.length ≤ 1 := by
  have h0 : WorkerReaches initWSt := WorkerReaches.init
  have h1 := WorkerReaches.step h0 (WorkerStep.enqueue initWSt 5)
  have h2 := WorkerReaches.step h1
    (WorkerStep.take { queue := [5], submitted := [5], running := none, executed := [] }
      5 [] rfl rfl)
  have h3 := WorkerReaches.step h2
    (WorkerStep.enqueue { queue := [], submitted := [5], running := some 5, executed := [] } 7)
  have h4 := WorkerReaches.step h3
    (WorkerStep.finish { queue := [7], submitted := [5, 7], running := some 5, executed := [] }
      5 rfl)
  exact single_worker_serializes _ h4

end Sflow
